import Mathlib

/-!
Shallow embedding of `projects/2025/August/scottish_munros/python/exploration.py`.

The script loads a table of Scottish peaks, attaches a planar point geometry
built from the `xcoord`/`ycoord` columns, filters the rows whose `2021`
classification is exactly `"Munro"` (subset A) and exactly `"Munro Top"`
(subset B), matches every Munro to its nearest Munro Top by Euclidean
distance (`Series.idxmin`, first minimum on ties, `ValueError` on an empty
series), records the matched name, geometry and the recomputed distance
divided by 1000, and finally takes the mean (`sum(col) / len(df)`,
`ZeroDivisionError` on an empty frame) and the median (`statistics.median`,
`StatisticsError` on an empty sequence) of the recorded distances.

Rows are modelled as records of the selected columns with exact rational
coordinates; the Euclidean distance is the real square root of the rational
squared distance; fallible steps return `Option`.
-/

namespace Munros

/-- A row of the projected table: the columns kept by the `select` calls
(`Name`, `Height_m`, `Height_ft`, `2021`) together with the coordinates
from which `gpd.points_from_xy` builds the row's point geometry. -/
structure Row where
  name : String
  height_m : ℚ
  height_ft : ℚ
  classification : String
  xcoord : ℚ
  ycoord : ℚ
deriving DecidableEq, Repr

/-- The point geometry attached to a row by `gpd.points_from_xy(munros.xcoord, munros.ycoord)`. -/
def Row.geometry (r : Row) : ℚ × ℚ := (r.xcoord, r.ycoord)

/-- Squared Euclidean distance between two planar points, in exact rational
arithmetic. -/
def sqDist (p q : ℚ × ℚ) : ℚ := (p.1 - q.1) ^ 2 + (p.2 - q.2) ^ 2

/-- Euclidean distance between two point geometries, as computed by shapely's
`Point.distance`. -/
noncomputable def pointDistance (p q : ℚ × ℚ) : ℝ :=
  Real.sqrt ((sqDist p q : ℚ) : ℝ)

/-- `filter(_['2021'] == "Munro")`: subset A of the projected table. -/
def only_munros (munros_geo : List Row) : List Row :=
  munros_geo.filter (fun r => r.classification = "Munro")

/-- `filter(_['2021'] == "Munro Top")`: subset B of the projected table. -/
def only_munro_tops (munros_geo : List Row) : List Row :=
  munros_geo.filter (fun r => r.classification = "Munro Top")

/-- `Series.idxmin` followed by `.loc`: the first row of the list attaining
the minimum value of `f`, or `none` for the empty list (pandas raises
`ValueError` there). -/
def argminFirst {β : Type} [LinearOrder β] (f : Row → β) : List Row → Option Row
  | [] => none
  | a :: rest =>
    match argminFirst f rest with
    | none => some a
    | some b => if f a ≤ f b then some a else some b

/-- `only_munros.geometry.apply(lambda x: only_munro_tops.loc[only_munro_tops.geometry.distance(x).idxmin()])`:
for each A geometry `x`, the first B row whose geometry is at minimum
Euclidean distance from `x`. -/
noncomputable def closest_points (tops : List Row) (munros : List Row) :
    List (Option Row) :=
  munros.map (fun x => argminFirst (fun t => pointDistance t.geometry x.geometry) tops)

/-- One row of the mutated `only_munros` frame: the original A row augmented
with `closest_name`, `closest_geometry` and `closest_distance`. -/
structure MatchResult where
  row : Row
  closest_name : String
  closest_geometry : ℚ × ℚ
  closest_distance : ℝ

/-- The three `mutate` steps for a single A row `m`: look up the nearest B
row, store its name and geometry, and record
`row['geometry'].distance(row['closest_geometry']) / 1000`.  `none` when
subset B is empty, where the script raises. -/
noncomputable def matchRow (tops : List Row) (m : Row) : Option MatchResult :=
  match argminFirst (fun t => pointDistance t.geometry m.geometry) tops with
  | none => none
  | some q =>
    some ⟨m, q.name, q.geometry, pointDistance m.geometry q.geometry / 1000⟩

/-- The whole mutated `only_munros` frame: every A row matched in order;
`none` as soon as any single match fails. -/
noncomputable def only_munros_matched (munros_geo : List Row) :
    Option (List MatchResult) :=
  (only_munros munros_geo).mapM (matchRow (only_munro_tops munros_geo))

/-- `dist_mean = sum(only_munros.closest_distance) / len(only_munros)`:
`none` on an empty frame, where Python raises `ZeroDivisionError`. -/
noncomputable def dist_mean (table : List MatchResult) : Option ℝ :=
  if table.length = 0 then none
  else some ((table.map (fun r => r.closest_distance)).sum / (table.length : ℝ))

/-- `statistics.median`: sort the data; the middle element for odd length,
the average of the two middle elements for even length, `none` for the
empty sequence (Python raises `StatisticsError`). -/
noncomputable def median (ds : List ℝ) : Option ℝ :=
  if ds.length = 0 then none
  else
    let s := List.insertionSort (fun a b => a ≤ b) ds
    if ds.length % 2 = 1 then some (s.getD (ds.length / 2) 0)
    else some ((s.getD (ds.length / 2 - 1) 0 + s.getD (ds.length / 2) 0) / 2)

/-- `dist_median = stat.median(only_munros.closest_distance)`. -/
noncomputable def dist_median (table : List MatchResult) : Option ℝ :=
  median (table.map (fun r => r.closest_distance))

/-! Basic facts about the distance function. -/

theorem sqDist_nonneg (p q : ℚ × ℚ) : 0 ≤ sqDist p q :=
  add_nonneg (sq_nonneg _) (sq_nonneg _)

theorem pointDistance_nonneg (p q : ℚ × ℚ) : 0 ≤ pointDistance p q :=
  Real.sqrt_nonneg _

theorem sqDist_comm (p q : ℚ × ℚ) : sqDist p q = sqDist q p := by
  unfold sqDist; ring

theorem pointDistance_comm (p q : ℚ × ℚ) : pointDistance p q = pointDistance q p := by
  unfold pointDistance; rw [sqDist_comm]

theorem pointDistance_le_iff (a b x : ℚ × ℚ) :
    pointDistance a x ≤ pointDistance b x ↔ sqDist a x ≤ sqDist b x := by
  unfold pointDistance
  rw [Real.sqrt_le_sqrt_iff (by exact_mod_cast sqDist_nonneg b x), Rat.cast_le]

/-! Facts about `argminFirst`, the embedding of `Series.idxmin`. -/

theorem argminFirst_eq_none_iff {β : Type} [LinearOrder β] (f : Row → β)
    (l : List Row) : argminFirst f l = none ↔ l = [] := by
  cases l with
  | nil => simp [argminFirst]
  | cons a rest =>
    cases hr : argminFirst f rest with
    | none => simp [argminFirst, hr]
    | some b =>
      simp only [argminFirst, hr]
      split <;> simp

/-- `argminFirst` returns the first element attaining the global minimum:
the list splits as `l₁ ++ a :: l₂` where `a` is a global minimum of `f` and
every element strictly before it has a strictly larger `f`-value. -/
theorem argminFirst_spec {β : Type} [LinearOrder β] (f : Row → β)
    (l : List Row) (a : Row) (h : argminFirst f l = some a) :
    ∃ l₁ l₂, l = l₁ ++ a :: l₂ ∧ (∀ b ∈ l, f a ≤ f b) ∧ (∀ b ∈ l₁, f a < f b) := by
  induction l generalizing a with
  | nil => simp [argminFirst] at h
  | cons x rest ih =>
    simp only [argminFirst] at h
    cases hr : argminFirst f rest with
    | none =>
      have hrest : rest = [] := (argminFirst_eq_none_iff f rest).mp hr
      rw [hr] at h
      obtain rfl : x = a := by simpa using h
      exact ⟨[], rest, rfl, by simp [hrest], by simp⟩
    | some b =>
      rw [hr] at h
      obtain ⟨r₁, r₂, hsplit, hmin, hstrict⟩ := ih b hr
      by_cases hxb : f x ≤ f b
      · obtain rfl : x = a := by simpa [hxb] using h
        refine ⟨[], rest, rfl, ?_, by simp⟩
        intro c hc
        rcases List.mem_cons.mp hc with rfl | hc
        · exact le_rfl
        · exact le_trans hxb (hmin c hc)
      · obtain rfl : b = a := by simpa [hxb] using h
        refine ⟨x :: r₁, r₂, by simp [hsplit], ?_, ?_⟩
        · intro c hc
          rcases List.mem_cons.mp hc with rfl | hc
          · exact le_of_lt (lt_of_not_le hxb)
          · exact hmin c hc
        · intro c hc
          rcases List.mem_cons.mp hc with rfl | hc
          · exact lt_of_not_le hxb
          · exact hstrict c hc

theorem argminFirst_mem {β : Type} [LinearOrder β] (f : Row → β)
    (l : List Row) (a : Row) (h : argminFirst f l = some a) : a ∈ l := by
  obtain ⟨l₁, l₂, rfl, -, -⟩ := argminFirst_spec f l a h
  simp

theorem argminFirst_min {β : Type} [LinearOrder β] (f : Row → β)
    (l : List Row) (a : Row) (h : argminFirst f l = some a) :
    ∀ b ∈ l, f a ≤ f b :=
  (argminFirst_spec f l a h).choose_spec.choose_spec.2.1

theorem argminFirst_isSome {β : Type} [LinearOrder β] (f : Row → β)
    (l : List Row) (hl : l ≠ []) : ∃ a, argminFirst f l = some a := by
  cases ha : argminFirst f l with
  | none => exact absurd ((argminFirst_eq_none_iff f l).mp ha) hl
  | some a => exact ⟨a, rfl⟩

/-- Comparing by any order-isomorphic key gives the same first-minimum row. -/
theorem argminFirst_congr {β γ : Type} [LinearOrder β] [LinearOrder γ]
    (f : Row → β) (g : Row → γ) (hfg : ∀ a b, f a ≤ f b ↔ g a ≤ g b)
    (l : List Row) : argminFirst f l = argminFirst g l := by
  induction l with
  | nil => rfl
  | cons a rest ih =>
    simp only [argminFirst, ih]
    cases hr : argminFirst g rest with
    | none => rfl
    | some b => simp only [hfg]

/-- Selecting by the real Euclidean distance agrees with selecting by the
rational squared distance, which is decidable and executable. -/
theorem argminFirst_dist (x : ℚ × ℚ) (l : List Row) :
    argminFirst (fun t => pointDistance t.geometry x) l
      = argminFirst (fun t => sqDist t.geometry x) l :=
  argminFirst_congr _ _ (fun a b => pointDistance_le_iff _ _ _) l

/-! Facts about `matchRow`. -/

theorem matchRow_eq_some (tops : List Row) (m : Row) (q : Row)
    (h : argminFirst (fun t => pointDistance t.geometry m.geometry) tops = some q) :
    matchRow tops m =
      some ⟨m, q.name, q.geometry, pointDistance m.geometry q.geometry / 1000⟩ := by
  unfold matchRow
  rw [h]

theorem matchRow_isSome (tops : List Row) (m : Row) (h : tops ≠ []) :
    ∃ res, matchRow tops m = some res := by
  obtain ⟨q, hq⟩ :=
    argminFirst_isSome (fun t => pointDistance t.geometry m.geometry) tops h
  exact ⟨_, matchRow_eq_some tops m q hq⟩

theorem matchRow_shape (tops : List Row) (m : Row) (res : MatchResult)
    (h : matchRow tops m = some res) :
    ∃ q : Row, argminFirst (fun t => pointDistance t.geometry m.geometry) tops = some q ∧
      res = ⟨m, q.name, q.geometry, pointDistance m.geometry q.geometry / 1000⟩ := by
  unfold matchRow at h
  cases hq : argminFirst (fun t => pointDistance t.geometry m.geometry) tops with
  | none => rw [hq] at h; exact absurd h (by simp)
  | some q =>
    rw [hq] at h
    exact ⟨q, rfl, (Option.some_injective _ h).symm⟩

/-- The recorded `closest_distance` is the least element of the set of
kilometer distances from the A row to the rows of subset B. -/
theorem matchRow_isLeast (tops : List Row) (m : Row) (res : MatchResult)
    (h : matchRow tops m = some res) :
    IsLeast {d : ℝ | ∃ q ∈ tops, d = pointDistance m.geometry q.geometry / 1000}
      res.closest_distance := by
  obtain ⟨q, hq, rfl⟩ := matchRow_shape tops m res h
  constructor
  · exact ⟨q, argminFirst_mem _ tops q hq, rfl⟩
  · rintro d ⟨b, hb, rfl⟩
    have hmin := argminFirst_min _ tops q hq b hb
    rw [pointDistance_comm q.geometry m.geometry,
      pointDistance_comm b.geometry m.geometry] at hmin
    exact (div_le_div_iff_of_pos_right (by norm_num)).mpr hmin

/-! Concrete rows used to instantiate the theorems below. -/

def rowM : Row := ⟨"Ben Alpha", 1000, 3281, "Munro", 0, 0⟩

def rowM2 : Row := ⟨"Ben Beta", 1100, 3609, "Munro", 7, 4⟩

def rowT1 : Row := ⟨"Top Gamma", 950, 3117, "Munro Top", 3, 4⟩

def rowT2 : Row := ⟨"Top Delta", 940, 3084, "Munro Top", 0, 10⟩

def rowN : Row := ⟨"Corbett Epsilon", 800, 2625, "Corbett", 1, 1⟩

def sampleTable : List Row := [rowM, rowT1, rowM2, rowT2, rowN]

/-- C1: for every Munro row, with at least one Munro Top present, the
match succeeds and its recorded `closest_distance` is nonnegative and is
the minimum over all Munro Top rows of the Euclidean distance divided by
1000: no candidate is strictly closer than the reported match. -/
theorem c1_nearest_distance (table : List Row) (m : Row)
    (hm : m ∈ only_munros table) (hB : only_munro_tops table ≠ []) :
    ∃ res, matchRow (only_munro_tops table) m = some res ∧
      0 ≤ res.closest_distance ∧
      (∀ q ∈ only_munro_tops table,
        res.closest_distance ≤ pointDistance m.geometry q.geometry / 1000) ∧
      (∃ q ∈ only_munro_tops table,
        res.closest_distance = pointDistance m.geometry q.geometry / 1000) := by
  obtain ⟨res, hres⟩ := matchRow_isSome _ m hB
  obtain ⟨hmem, hlb⟩ := matchRow_isLeast _ m res hres
  obtain ⟨q, hq, hd⟩ := hmem
  refine ⟨res, hres, ?_, ?_, ⟨q, hq, hd⟩⟩
  · rw [hd]
    exact div_nonneg (pointDistance_nonneg _ _) (by norm_num)
  · intro q' hq'
    exact hlb ⟨q', hq', rfl⟩

theorem c1_witness :
    ∃ res, matchRow (only_munro_tops sampleTable) rowM = some res ∧
      0 ≤ res.closest_distance ∧
      (∀ q ∈ only_munro_tops sampleTable,
        res.closest_distance ≤ pointDistance rowM.geometry q.geometry / 1000) ∧
      (∃ q ∈ only_munro_tops sampleTable,
        res.closest_distance = pointDistance rowM.geometry q.geometry / 1000) :=
  c1_nearest_distance sampleTable rowM (by decide) (by decide)

/-- C2: when subset B (the Munro Top rows) is empty, the matcher signals an
explicit error (`none`) for every row of subset A; it never records a
placeholder distance. -/
theorem c2_empty_tops_error (table : List Row) (hB : only_munro_tops table = [])
    (m : Row) (hm : m ∈ only_munros table) :
    matchRow (only_munro_tops table) m = none := by
  rw [hB]
  unfold matchRow argminFirst
  rfl

theorem c2_witness : matchRow (only_munro_tops [rowM, rowN]) rowM = none :=
  c2_empty_tops_error [rowM, rowN] (by decide) rowM (by decide)

/-- C5: the two partition outputs are disjoint, every row of either output
has classification exactly equal to the corresponding predicate string, and
a row matching neither predicate appears in neither output. -/
theorem c5_partition (table : List Row) (r : Row) :
    (r ∈ only_munros table → r.classification = "Munro") ∧
    (r ∈ only_munro_tops table → r.classification = "Munro Top") ∧
    ¬(r ∈ only_munros table ∧ r ∈ only_munro_tops table) ∧
    (r.classification ≠ "Munro" → r.classification ≠ "Munro Top" →
      r ∉ only_munros table ∧ r ∉ only_munro_tops table) := by
  have h1 : r ∈ only_munros table → r.classification = "Munro" := by
    intro h
    simpa using (List.mem_filter.mp h).2
  have h2 : r ∈ only_munro_tops table → r.classification = "Munro Top" := by
    intro h
    simpa using (List.mem_filter.mp h).2
  refine ⟨h1, h2, ?_, ?_⟩
  · rintro ⟨ha, hb⟩
    have := (h1 ha).symm.trans (h2 hb)
    simp at this
  · intro hna hnb
    exact ⟨fun h => hna (h1 h), fun h => hnb (h2 h)⟩

theorem c5_witness :
    rowN ∉ only_munros sampleTable ∧ rowN ∉ only_munro_tops sampleTable :=
  (c5_partition sampleTable rowN).2.2.2 (by decide) (by decide)

/-- C6: with subset B non-empty, the matcher selects for each Munro row the
first Munro Top row, in B's iteration order, attaining the minimum
distance: the chosen row is a global minimum of the distance and every row
strictly before it in B is strictly farther. -/
theorem c6_first_minimum (table : List Row) (m : Row)
    (hm : m ∈ only_munros table) (hB : only_munro_tops table ≠ []) :
    ∃ q l₁ l₂,
      argminFirst (fun t => pointDistance t.geometry m.geometry)
        (only_munro_tops table) = some q ∧
      only_munro_tops table = l₁ ++ q :: l₂ ∧
      (∀ b ∈ only_munro_tops table,
        pointDistance q.geometry m.geometry ≤ pointDistance b.geometry m.geometry) ∧
      (∀ b ∈ l₁,
        pointDistance q.geometry m.geometry < pointDistance b.geometry m.geometry) := by
  obtain ⟨q, hq⟩ :=
    argminFirst_isSome (fun t => pointDistance t.geometry m.geometry) _ hB
  obtain ⟨l₁, l₂, hsplit, hmin, hstrict⟩ := argminFirst_spec _ _ q hq
  exact ⟨q, l₁, l₂, hq, hsplit, hmin, hstrict⟩

theorem c6_witness :
    ∃ q l₁ l₂,
      argminFirst (fun t => pointDistance t.geometry rowM.geometry)
        (only_munro_tops sampleTable) = some q ∧
      only_munro_tops sampleTable = l₁ ++ q :: l₂ ∧
      (∀ b ∈ only_munro_tops sampleTable,
        pointDistance q.geometry rowM.geometry ≤ pointDistance b.geometry rowM.geometry) ∧
      (∀ b ∈ l₁,
        pointDistance q.geometry rowM.geometry < pointDistance b.geometry rowM.geometry) :=
  c6_first_minimum sampleTable rowM (by decide) (by decide)

/-- Rows with the same coordinates but different classifications, to observe
a zero-distance match between distinct rows. -/
def coM : Row := ⟨"Ben Same", 1000, 3281, "Munro", 2, 2⟩

def coT : Row := ⟨"Top Same", 950, 3117, "Munro Top", 2, 2⟩

def coTable : List Row := [coM, coT]

/-- C10: every match pairs a row classified exactly `"Munro"` with a row
classified exactly `"Munro Top"`; the two predicates are mutually exclusive,
so the matched rows are always distinct, even when their coordinates
coincide. -/
theorem c10_no_self_match (table : List Row) (m : Row)
    (hm : m ∈ only_munros table) (hB : only_munro_tops table ≠ []) :
    ∃ q, argminFirst (fun t => pointDistance t.geometry m.geometry)
        (only_munro_tops table) = some q ∧
      m.classification = "Munro" ∧ q.classification = "Munro Top" ∧ m ≠ q := by
  obtain ⟨q, hq⟩ :=
    argminFirst_isSome (fun t => pointDistance t.geometry m.geometry) _ hB
  have hqmem := argminFirst_mem _ _ q hq
  have hmc : m.classification = "Munro" := by
    simpa using (List.mem_filter.mp hm).2
  have hqc : q.classification = "Munro Top" := by
    simpa using (List.mem_filter.mp hqmem).2
  refine ⟨q, hq, hmc, hqc, ?_⟩
  intro h
  rw [h] at hmc
  rw [hmc] at hqc
  simp at hqc

theorem c10_witness :
    ∃ q, argminFirst (fun t => pointDistance t.geometry coM.geometry)
        (only_munro_tops coTable) = some q ∧
      coM.classification = "Munro" ∧ q.classification = "Munro Top" ∧ coM ≠ q :=
  c10_no_self_match coTable coM (by decide) (by decide)

/-- Specification-side definition for the refinement comparison: directly
the minimum, over the rows of subset B, of the kilometer distance (Euclidean
distance divided by 1000) from the point `p`; `none` for empty B. -/
noncomputable def specNearestKm (tops : List Row) (p : ℚ × ℚ) : Option ℝ :=
  match tops with
  | [] => none
  | q :: rest =>
    match specNearestKm rest p with
    | none => some (pointDistance p q.geometry / 1000)
    | some d => some (min (pointDistance p q.geometry / 1000) d)

theorem specNearestKm_isLeast (p : ℚ × ℚ) (tops : List Row) (h : tops ≠ []) :
    ∃ d, specNearestKm tops p = some d ∧
      IsLeast {d : ℝ | ∃ q ∈ tops, d = pointDistance p q.geometry / 1000} d := by
  induction tops with
  | nil => exact absurd rfl h
  | cons q rest ih =>
    by_cases hr : rest = []
    · subst hr
      refine ⟨pointDistance p q.geometry / 1000, by simp [specNearestKm], ?_, ?_⟩
      · exact ⟨q, by simp, rfl⟩
      · rintro d ⟨b, hb, rfl⟩
        obtain rfl : b = q := by simpa using hb
        exact le_rfl
    · obtain ⟨d, hd, hleast⟩ := ih hr
      refine ⟨min (pointDistance p q.geometry / 1000) d, ?_, ?_, ?_⟩
      · simp [specNearestKm, hd]
      · rcases le_total (pointDistance p q.geometry / 1000) d with hle | hle
        · exact ⟨q, by simp, (min_eq_left hle)⟩
        · obtain ⟨b, hb, hbd⟩ := hleast.1
          exact ⟨b, by simp [hb], by rw [min_eq_right hle, hbd]⟩
      · rintro e ⟨b, hb, rfl⟩
        rcases List.mem_cons.mp hb with rfl | hb
        · exact min_le_left _ _
        · exact le_trans (min_le_right _ _) (hleast.2 ⟨b, hb, rfl⟩)

/-- C9: the two-phase computation of the script (first select the nearest B
row by raw meter distances, then recompute the distance to the stored
geometry and divide by 1000) produces exactly the minimum kilometer
distance over subset B. -/
theorem c9_two_phase_refinement (tops : List Row) (m : Row) (hB : tops ≠ []) :
    ∃ res, matchRow tops m = some res ∧
      specNearestKm tops m.geometry = some res.closest_distance := by
  obtain ⟨res, hres⟩ := matchRow_isSome tops m hB
  obtain ⟨d, hd, hleast⟩ := specNearestKm_isLeast m.geometry tops hB
  have hud := hleast.unique (matchRow_isLeast tops m res hres)
  exact ⟨res, hres, by rw [hd, hud]⟩

theorem c9_witness :
    ∃ res, matchRow (only_munro_tops sampleTable) rowM = some res ∧
      specNearestKm (only_munro_tops sampleTable) rowM.geometry =
        some res.closest_distance :=
  c9_two_phase_refinement (only_munro_tops sampleTable) rowM (by decide)

/-! Rows for the tie-breaking counterexample: two Munro Tops at exactly the
same distance from a Munro. -/

def tieM : Row := ⟨"Ben Tie", 1000, 3281, "Munro", 0, 0⟩

def tieT1 : Row := ⟨"Top North", 950, 3117, "Munro Top", 0, 5⟩

def tieT2 : Row := ⟨"Top East", 940, 3084, "Munro Top", 5, 0⟩

/-- C7 counterexample: permuting subset B does not leave the match result
unchanged.  With two Munro Tops equidistant from the Munro, swapping them
changes which row is matched (the recorded name differs), so the full match
result depends on B's insertion order. -/
theorem c7_counterexample :
    List.Perm [tieT1, tieT2] [tieT2, tieT1] ∧
      matchRow [tieT1, tieT2] tieM ≠ matchRow [tieT2, tieT1] tieM := by
  refine ⟨List.Perm.swap tieT2 tieT1 [], ?_⟩
  intro h
  have e1 : argminFirst (fun t => pointDistance t.geometry tieM.geometry)
      [tieT1, tieT2] = some tieT1 :=
    (argminFirst_dist tieM.geometry [tieT1, tieT2]).trans
      (by norm_num [argminFirst, sqDist, tieT1, tieT2, tieM, Row.geometry])
  have e2 : argminFirst (fun t => pointDistance t.geometry tieM.geometry)
      [tieT2, tieT1] = some tieT2 :=
    (argminFirst_dist tieM.geometry [tieT2, tieT1]).trans
      (by norm_num [argminFirst, sqDist, tieT2, tieT1, tieM, Row.geometry])
  rw [matchRow_eq_some _ _ _ e1, matchRow_eq_some _ _ _ e2] at h
  have hn := congrArg (fun o => Option.map MatchResult.closest_name o) h
  simp [tieT1, tieT2] at hn

/-- C7 amended: permuting the rows of subset B leaves the recorded distance
of every match unchanged (the matched peak itself may change among
equidistant candidates, as the counterexample shows). -/
theorem c7_perm_distance_invariant (tops tops2 : List Row) (m : Row)
    (hperm : List.Perm tops tops2) (hne : tops ≠ []) :
    ∃ res res2, matchRow tops m = some res ∧ matchRow tops2 m = some res2 ∧
      res.closest_distance = res2.closest_distance := by
  have hne2 : tops2 ≠ [] := fun h => hne (List.Perm.eq_nil (h ▸ hperm))
  obtain ⟨res, hres⟩ := matchRow_isSome tops m hne
  obtain ⟨res2, hres2⟩ := matchRow_isSome tops2 m hne2
  have h1 := matchRow_isLeast tops m res hres
  have h2 := matchRow_isLeast tops2 m res2 hres2
  have hset : {d : ℝ | ∃ q ∈ tops, d = pointDistance m.geometry q.geometry / 1000}
      = {d : ℝ | ∃ q ∈ tops2, d = pointDistance m.geometry q.geometry / 1000} := by
    ext d
    constructor <;> rintro ⟨q, hq, rfl⟩
    · exact ⟨q, hperm.mem_iff.mp hq, rfl⟩
    · exact ⟨q, hperm.mem_iff.mpr hq, rfl⟩
  rw [hset] at h1
  exact ⟨res, res2, hres, hres2, h1.unique h2⟩

theorem c7_witness :
    ∃ res res2, matchRow [tieT1, tieT2] tieM = some res ∧
      matchRow [tieT2, tieT1] tieM = some res2 ∧
      res.closest_distance = res2.closest_distance :=
  c7_perm_distance_invariant [tieT1, tieT2] [tieT2, tieT1] tieM
    (List.Perm.swap tieT2 tieT1 []) (by simp)

/-! Facts about the aggregator. -/

/-- `median` computed on any list agrees with picking the middle element
(or the average of the two middle elements) of any sorted rearrangement of
that list. -/
theorem median_sorted_char (ds s : List ℝ) (hperm : List.Perm ds s)
    (hsorted : s.Sorted (fun a b => a ≤ b)) (hne : ds ≠ []) :
    median ds =
      if ds.length % 2 = 1 then some (s.getD (ds.length / 2) 0)
      else some ((s.getD (ds.length / 2 - 1) 0 + s.getD (ds.length / 2) 0) / 2) := by
  have hsort_eq : List.insertionSort (fun a b => a ≤ b) ds = s := by
    refine List.eq_of_perm_of_sorted
      ((List.perm_insertionSort _ ds).trans hperm) ?_ hsorted
    exact List.sorted_insertionSort _ ds
  rw [median, if_neg (fun h => hne (List.length_eq_zero.mp h)), hsort_eq]

/-- C3: the mean is the sum of the recorded distances divided by their
count, and the median is the middle element of the sorted distances (for
odd length) or the average of the two middle elements (for even length); in
particular the mean of a one-element sequence is its element, the median of
`[1, 2, 3]` is `2` and the median of `[1, 2, 3, 4]` is `5 / 2`. -/
theorem c3_aggregator :
    (∀ t : List MatchResult, t ≠ [] →
      dist_mean t = some ((t.map (fun r => r.closest_distance)).sum /
        (((t.map (fun r => r.closest_distance)).length : ℕ) : ℝ))) ∧
    (∀ ds s : List ℝ, List.Perm ds s → s.Sorted (fun a b => a ≤ b) → ds ≠ [] →
      median ds =
        if ds.length % 2 = 1 then some (s.getD (ds.length / 2) 0)
        else some ((s.getD (ds.length / 2 - 1) 0 + s.getD (ds.length / 2) 0) / 2)) ∧
    (∀ r : MatchResult, dist_mean [r] = some r.closest_distance) ∧
    median [(1 : ℝ), 2, 3] = some 2 ∧
    median [(1 : ℝ), 2, 3, 4] = some (5 / 2) := by
  refine ⟨?_, ?_, ?_, ?_, ?_⟩
  · intro t ht
    rw [dist_mean, if_neg (fun h => ht (List.length_eq_zero.mp h)),
      List.length_map]
  · exact median_sorted_char
  · intro r
    simp [dist_mean]
  · rw [median_sorted_char [1, 2, 3] [1, 2, 3] (List.Perm.refl _)
      (by norm_num [List.sorted_cons]) (by simp)]
    norm_num [List.getD]
  · rw [median_sorted_char [1, 2, 3, 4] [1, 2, 3, 4] (List.Perm.refl _)
      (by norm_num [List.sorted_cons]) (by simp)]
    norm_num [List.getD]

theorem c3_witness :
    dist_mean [(⟨rowM, "Top Gamma", (3, 4), 5⟩ : MatchResult)] = some 5 := by
  have h := c3_aggregator.2.2.1 (⟨rowM, "Top Gamma", (3, 4), 5⟩ : MatchResult)
  simpa using h

/-- C4: on an empty sequence of match distances both the mean and the
median signal an explicit error (`none`, where the script raises
`ZeroDivisionError` and `StatisticsError` respectively); neither produces a
numeric result. -/
theorem c4_empty_aggregator_error :
    dist_mean ([] : List MatchResult) = none ∧
      dist_median ([] : List MatchResult) = none := by
  constructor
  · simp [dist_mean]
  · simp [dist_median, median]

theorem mapM_matchRow (tops : List Row) (h : tops ≠ []) (l : List Row) :
    ∃ results : List MatchResult, l.mapM (matchRow tops) = some results ∧
      results.length = l.length := by
  induction l with
  | nil => exact ⟨[], rfl, rfl⟩
  | cons a rest ih =>
    obtain ⟨rs, hrs, hlen⟩ := ih
    obtain ⟨r, hr⟩ := matchRow_isSome tops a h
    exact ⟨r :: rs, by rw [List.mapM_cons, hr, hrs]; rfl, by simp [hlen]⟩

/-- C8: when subset B is non-empty the matcher produces exactly one match
result per Munro row, so the number of recorded distances equals the number
of Munro rows, and the script's mean (sum divided by the frame length) is
the arithmetic mean of the distance sequence. -/
theorem c8_one_match_per_row (table : List Row) (hB : only_munro_tops table ≠ []) :
    ∃ results : List MatchResult,
      only_munros_matched table = some results ∧
      results.length = (only_munros table).length ∧
      (results ≠ [] →
        dist_mean results = some ((results.map (fun r => r.closest_distance)).sum /
          (((results.map (fun r => r.closest_distance)).length : ℕ) : ℝ))) := by
  obtain ⟨results, hres, hlen⟩ :=
    mapM_matchRow (only_munro_tops table) hB (only_munros table)
  refine ⟨results, hres, hlen, ?_⟩
  intro hne
  rw [dist_mean, if_neg (fun h => hne (List.length_eq_zero.mp h)),
    List.length_map]

theorem c8_witness :
    ∃ results : List MatchResult,
      only_munros_matched sampleTable = some results ∧
      results.length = (only_munros sampleTable).length ∧
      (results ≠ [] →
        dist_mean results = some ((results.map (fun r => r.closest_distance)).sum /
          (((results.map (fun r => r.closest_distance)).length : ℕ) : ℝ))) :=
  c8_one_match_per_row sampleTable (by decide)

end Munros
